import Mathlib

/-!
Hangman game state machine (`src/App.js`)

A shallow embedding of the game logic of the `HangmanGame` React component:
the constants `WORD_LISTS`, `MAX_WRONG_GUESSES`, `ALPHABET`, `HANGMAN_STAGES`,
the state held in the `useState` hooks, and the callbacks and effects
`initializeGame`, `checkWinCondition`, the lose-condition effect,
`handleLetterGuess` and `displayWord`.

Modelling conventions.

* A letter is a `Char`; the keyboard only ever passes the one-character
  strings of `ALPHABET` to `handleLetterGuess`.  For a one-character string
  `letter`, `currentWord.includes(letter)` (substring search) is membership of
  the character in `currentWord.split('')`, and `guessedLetters.includes(letter)`
  is list membership.
* `currentWord.split('')` is `currentWord.toList` (the words are ASCII, so UTF-16
  code units and characters coincide).
* React state is passed explicitly.  An effect runs after a render in which one
  of its dependencies changed; effects run in the order they are declared
  (lose-condition effect before win-condition effect).
* `Math.random()` is an input: a finite non-negative binary64 value below 1.
  The product `Math.random() * wordList.length` is rounded to nearest, ties to
  even, as IEEE-754 multiplication is; `Math.floor` is the integer floor.
* Animations and vibration do not touch the game state and are left out.
-/

namespace Hangman

/-- The three keys of `WORD_LISTS`. -/
inductive Difficulty where
  | easy
  | medium
  | hard
  deriving DecidableEq

/-- The values of `gameStatus`: `'playing'`, `'won'`, `'lost'`. -/
inductive GameStatus where
  | playing
  | won
  | lost
  deriving DecidableEq

/-- Word lists by difficulty (`WORD_LISTS`). -/
def WORD_LISTS : Difficulty → List String
  | .easy => ["CAT", "DOG", "SUN", "MOON", "TREE", "FISH", "BIRD", "BOOK", "CAKE", "GAME"]
  | .medium => ["HOUSE", "PLANT", "MUSIC", "PHONE", "LIGHT", "WATER", "CLOUD", "SMILE", "DANCE", "HEART"]
  | .hard => ["AMAZING", "JOURNEY", "MYSTERY", "FREEDOM", "COURAGE", "SCIENCE", "HARMONY", "VICTORY", "BALANCE", "THUNDER"]

/-- The constant `MAX_WRONG_GUESSES`. -/
def MAX_WRONG_GUESSES : Nat := 6

/-- The constant `ALPHABET`, i.e. `'ABCDEFGHIJKLMNOPQRSTUVWXYZ'.split('')`. -/
def ALPHABET : List Char := "ABCDEFGHIJKLMNOPQRSTUVWXYZ".toList

/-- Hangman drawing stages (`HANGMAN_STAGES`), indexed by `wrongGuesses`. -/
def HANGMAN_STAGES : List String :=
  [ "",
    "  |\n  |",
    "  +---+\n  |   |\n      |",
    "  +---+\n  |   |\n  O   |",
    "  +---+\n  |   |\n  O   |\n  |   |",
    "  +---+\n  |   |\n  O   |\n /|   |",
    "  +---+\n  |   |\n  O   |\n /|\\  |\n /    |" ]

/-- The game state of the component: one field per `useState` hook that the
game logic reads or writes. -/
structure State where
  currentWord : String
  guessedLetters : List Char
  wrongGuesses : Nat
  gameStatus : GameStatus
  score : Nat
  difficulty : Difficulty
  deriving DecidableEq

/-- The state of the hooks at mount, before the first effect has run. -/
def initialState : State :=
  { currentWord := "", guessedLetters := [], wrongGuesses := 0,
    gameStatus := .playing, score := 0, difficulty := .medium }

/-- The test of `checkWinCondition`:
`currentWord && currentWord.split('').every(letter => guessedLetters.includes(letter))`. -/
def winCondition (st : State) : Bool :=
  st.currentWord != "" && st.currentWord.toList.all (fun letter => st.guessedLetters.contains letter)

/-- The callback `checkWinCondition`: on a covered word, `setGameStatus('won')` and
`setScore(prev => prev + 10)`. -/
def checkWinCondition (st : State) : State :=
  if winCondition st then
    { st with gameStatus := .won, score := st.score + 10 }
  else st

/-- The body of the lose-condition effect:
`if (wrongGuesses >= MAX_WRONG_GUESSES) setGameStatus('lost')`. -/
def loseEffect (st : State) : State :=
  if st.wrongGuesses ≥ MAX_WRONG_GUESSES then
    { st with gameStatus := .lost }
  else st

/-- The callback `handleLetterGuess`: the state updates it schedules, applied to
the state of the render it was created in.  `none` is the early `return`, which
schedules no update. -/
def handleLetterGuess (st : State) (letter : Char) : Option State :=
  if st.gameStatus ≠ .playing ∨ st.guessedLetters.contains letter then
    none
  else
    let newGuessedLetters := st.guessedLetters ++ [letter]
    if st.currentWord.toList.contains letter then
      some { st with guessedLetters := newGuessedLetters }
    else
      some { st with guessedLetters := newGuessedLetters, wrongGuesses := st.wrongGuesses + 1 }

/-- The effects that run after the render that follows an update from `prev` to
`next`.  The lose-condition effect depends on `wrongGuesses`; the win-condition
effect depends on `checkWinCondition`, which is re-created when `currentWord` or
`guessedLetters` changes.  `arrayReplaced` records that `setGuessedLetters` was
called with a fresh array (arrays are compared by identity). -/
def runEffects (prev next : State) (arrayReplaced : Bool) : State :=
  let afterLose := if next.wrongGuesses ≠ prev.wrongGuesses then loseEffect next else next
  if arrayReplaced || next.currentWord != prev.currentWord then checkWinCondition afterLose
  else afterLose

/-- One guess processed to quiescence: `handleLetterGuess` followed by the effects
of the render it causes.  An early return schedules no update, hence no render
and no effect.  The status and score updates of the effects change no effect
dependency, so no further effect runs. -/
def guessStep (st : State) (letter : Char) : State :=
  match handleLetterGuess st letter with
  | none => st
  | some next => runEffects st next true

/-- A sequence of guesses, each processed by `guessStep`. -/
def playGuesses (st : State) (letters : List Char) : State :=
  letters.foldl guessStep st

/-- The function `displayWord`:
`currentWord.split('').map(letter => guessedLetters.includes(letter) ? letter : '_').join(' ')`. -/
def displayWord (st : State) : String :=
  " ".intercalate
    (st.currentWord.toList.map
      (fun letter => if st.guessedLetters.contains letter then String.singleton letter else "_"))

/-- A finite non-negative IEEE-754 binary64 value, `m * 2 ^ e` with a
significand below `2 ^ 53` and an exponent in the binary64 range. -/
structure F64 where
  m : Nat
  e : Int
  hm : m < 2 ^ 53
  he : -1074 ≤ e ∧ e ≤ 971

/-- The rational number a binary64 value denotes. -/
def F64.val (x : F64) : ℚ := (x.m : ℚ) * (2 : ℚ) ^ x.e

/-- Rounding of a rational to the nearest integer, ties to the even one. -/
def roundNearestEven (y : ℚ) : ℤ :=
  let f := ⌊y⌋
  if y - f < 1 / 2 then f
  else if 1 / 2 < y - f then f + 1
  else if f % 2 = 0 then f else f + 1

/-- Rounding of a non-negative rational below `2 ^ 1024` to binary64: the spacing of
the representable values around `q` is `2 ^ (max ⌊log₂ q⌋ (-1022) - 52)`, and `q` is
rounded to the nearest multiple of it, ties to even. -/
def roundF64 (q : ℚ) : ℚ :=
  let E : ℤ := max (Int.log 2 q) (-1022) - 52
  (roundNearestEven (q / (2 : ℚ) ^ E) : ℚ) * (2 : ℚ) ^ E

/-- The index expression `Math.floor(Math.random() * wordList.length)`. -/
def randomIndex (random : F64) (length : Nat) : ℤ :=
  ⌊roundF64 (random.val * (length : ℚ))⌋

/-- The callback `initializeGame`, with the value of `Math.random()` as an input.
`none` stands for an index outside `wordList`, where `randomWord` would be
`undefined`. -/
def initializeGame (random : F64) (st : State) : Option State :=
  let wordList := WORD_LISTS st.difficulty
  let index := randomIndex random wordList.length
  if 0 ≤ index then
    match wordList[index.toNat]? with
    | some randomWord =>
      some { st with
        currentWord := randomWord, guessedLetters := [], wrongGuesses := 0,
        gameStatus := .playing }
    | none => none
  else none

/-- The callback `initializeGame` followed by the effects of the render it causes
(`setGuessedLetters([])` installs a fresh array). -/
def startRound (random : F64) (st : State) : Option State :=
  (initializeGame random st).map (fun next => runEffects st next true)

/-- A state as `initializeGame` leaves it: a word of `WORD_LISTS[difficulty]`, no
guessed letter, no wrong guess, status `'playing'`. -/
def RoundStart (st : State) : Prop :=
  st.currentWord ∈ WORD_LISTS st.difficulty ∧ st.guessedLetters = [] ∧ st.wrongGuesses = 0
    ∧ st.gameStatus = .playing

instance (st : State) : Decidable (RoundStart st) := by
  unfold RoundStart; infer_instance

/-- Every letter of `currentWord` is in `guessedLetters`. -/
def allGuessed (st : State) : Prop :=
  ∀ c ∈ st.currentWord.toList, c ∈ st.guessedLetters

instance (st : State) : Decidable (allGuessed st) := by
  unfold allGuessed; infer_instance

/-- The number of letters of `guessedLetters` that do not occur in `currentWord`. -/
def missCount (st : State) : Nat :=
  (st.guessedLetters.filter (fun c => !st.currentWord.toList.contains c)).length

/-- The invariant of a round in progress, relative to the score `s` the round
started with. -/
structure RoundInv (s : Nat) (st : State) : Prop where
  word_ne : st.currentWord ≠ ""
  nodup : st.guessedLetters.Nodup
  wrong_eq : st.wrongGuesses = missCount st
  wrong_le : st.wrongGuesses ≤ MAX_WRONG_GUESSES
  won_iff : st.gameStatus = .won ↔ allGuessed st
  lost_iff : st.gameStatus = .lost ↔ st.wrongGuesses = MAX_WRONG_GUESSES
  score_eq : st.score = if st.gameStatus = .won then s + 10 else s

/-- A fresh round on the word `CAT`. -/
def catState : State :=
  { currentWord := "CAT", guessedLetters := [], wrongGuesses := 0,
    gameStatus := .playing, score := 0, difficulty := .easy }

/-- The word `CAT` with only `C` guessed. -/
def catC : State :=
  { currentWord := "CAT", guessedLetters := ['C'], wrongGuesses := 0,
    gameStatus := .playing, score := 0, difficulty := .easy }

/-- A fresh round on the word `DOG`. -/
def dogState : State :=
  { currentWord := "DOG", guessedLetters := [], wrongGuesses := 0,
    gameStatus := .playing, score := 0, difficulty := .easy }

/-- A fresh round on the word `SUN`, with 20 points from earlier rounds. -/
def sunState : State :=
  { currentWord := "SUN", guessedLetters := [], wrongGuesses := 0,
    gameStatus := .playing, score := 20, difficulty := .easy }

/-- The binary64 value `0.5`. -/
def half : F64 := ⟨1, -1, by norm_num, by norm_num⟩

/-- The largest binary64 value below 1, `1 - 2 ^ (-53)`. -/
def belowOne : F64 := ⟨2 ^ 53 - 1, -53, by norm_num, by norm_num⟩

/-- The binary64 value of the literal `0.3`, `5404319552844595 * 2 ^ (-54)`, slightly
below three tenths. -/
def threeTenths : F64 := ⟨5404319552844595, -54, by norm_num, by norm_num⟩

theorem winCondition_iff (st : State) :
    winCondition st = true ↔ st.currentWord ≠ "" ∧ allGuessed st := by
  simp [winCondition, allGuessed]

theorem handleLetterGuess_eq_some {st next : State} {c : Char}
    (h : handleLetterGuess st c = some next) :
    st.gameStatus = .playing ∧ c ∉ st.guessedLetters ∧
      next = { st with
        guessedLetters := st.guessedLetters ++ [c],
        wrongGuesses := st.wrongGuesses + if c ∈ st.currentWord.toList then 0 else 1 } := by
  unfold handleLetterGuess at h
  split at h
  · cases h
  · rename_i hc
    simp only [not_or, not_not] at hc
    obtain ⟨hp, hm⟩ := hc
    have hm' : c ∉ st.guessedLetters := by simpa using hm
    refine ⟨hp, hm', ?_⟩
    by_cases hw : c ∈ st.currentWord.toList
    · have hw' : c ∈ st.currentWord.data := hw
      simp [hw'] at h ⊢
      exact h.symm
    · have hw' : c ∉ st.currentWord.data := hw
      simp [hw'] at h ⊢
      exact h.symm

theorem handleLetterGuess_eq_none {st : State} {c : Char} :
    handleLetterGuess st c = none ↔ st.gameStatus ≠ .playing ∨ c ∈ st.guessedLetters := by
  unfold handleLetterGuess
  split
  · rename_i hc
    simpa using hc
  · rename_i hc
    constructor
    · intro h
      split at h <;> cases h
    · intro h
      exact absurd (by simpa using h) hc

theorem guessStep_ignored {st : State} {c : Char}
    (h : st.gameStatus ≠ .playing ∨ c ∈ st.guessedLetters) : guessStep st c = st := by
  unfold guessStep
  rw [handleLetterGuess_eq_none.mpr h]

theorem guessStep_hit {st : State} {c : Char} (hp : st.gameStatus = .playing)
    (hg : c ∉ st.guessedLetters) (hw : c ∈ st.currentWord.toList) :
    guessStep st c = checkWinCondition { st with guessedLetters := st.guessedLetters ++ [c] } := by
  have hw' : c ∈ st.currentWord.data := hw
  simp [guessStep, handleLetterGuess, hp, hg, hw', runEffects]

theorem guessStep_miss {st : State} {c : Char} (hp : st.gameStatus = .playing)
    (hg : c ∉ st.guessedLetters) (hw : c ∉ st.currentWord.toList) :
    guessStep st c = checkWinCondition (loseEffect
      { st with guessedLetters := st.guessedLetters ++ [c], wrongGuesses := st.wrongGuesses + 1 }) := by
  have hw' : c ∉ st.currentWord.data := hw
  simp [guessStep, handleLetterGuess, hp, hg, hw', runEffects]

theorem allGuessed_append_miss {st : State} {c : Char} {n : Nat} (hw : c ∉ st.currentWord.toList) :
    allGuessed { st with guessedLetters := st.guessedLetters ++ [c], wrongGuesses := n }
      ↔ allGuessed st := by
  unfold allGuessed
  constructor
  · intro h x hx
    have := h x hx
    simp only [List.mem_append, List.mem_singleton] at this
    rcases this with h1 | h1
    · exact h1
    · subst h1; exact absurd hx hw
  · intro h x hx
    simp only [List.mem_append, List.mem_singleton]
    exact Or.inl (h x hx)

theorem missCount_append (st : State) (c : Char) (n : Nat) :
    missCount { st with guessedLetters := st.guessedLetters ++ [c], wrongGuesses := n }
      = missCount st + if c ∈ st.currentWord.toList then 0 else 1 := by
  unfold missCount
  by_cases hw : c ∈ st.currentWord.toList
  · have hw' : c ∈ st.currentWord.data := hw
    simp [List.filter_append, hw, hw']
  · have hw' : c ∉ st.currentWord.data := hw
    simp [List.filter_append, hw, hw']

theorem RoundInv.guessStep {s : Nat} {st : State} (h : RoundInv s st) (c : Char) :
    RoundInv s (guessStep st c) := by
  by_cases hi : st.gameStatus ≠ .playing ∨ c ∈ st.guessedLetters
  · rw [guessStep_ignored hi]; exact h
  · simp only [not_or, not_not] at hi
    obtain ⟨hp, hg⟩ := hi
    have hnw : ¬ allGuessed st := fun ha => by
      have := h.won_iff.mpr ha
      rw [hp] at this; cases this
    have hlt : st.wrongGuesses < MAX_WRONG_GUESSES := by
      rcases Nat.lt_or_ge st.wrongGuesses MAX_WRONG_GUESSES with h1 | h1
      · exact h1
      · have := h.lost_iff.mpr (le_antisymm h.wrong_le h1)
        rw [hp] at this; cases this
    have hs : st.score = s := by
      have := h.score_eq
      rw [hp] at this; simpa using this
    have hnd : (st.guessedLetters ++ [c]).Nodup :=
      List.Nodup.append h.nodup (List.nodup_singleton c) (by simpa using hg)
    by_cases hw : c ∈ st.currentWord.toList
    · have hmc : st.wrongGuesses
          = missCount { st with guessedLetters := st.guessedLetters ++ [c] } := by
        rw [missCount_append st c st.wrongGuesses, if_pos hw, Nat.add_zero]
        exact h.wrong_eq
      rw [guessStep_hit hp hg hw]
      unfold checkWinCondition
      split
      · rename_i hwin
        have hwin' := (winCondition_iff _).mp hwin
        exact
          { word_ne := h.word_ne
            nodup := hnd
            wrong_eq := hmc
            wrong_le := h.wrong_le
            won_iff := ⟨fun _ => hwin'.2, fun _ => rfl⟩
            lost_iff := ⟨fun h1 => (nomatch h1), fun h1 => absurd h1 (Nat.ne_of_lt hlt)⟩
            score_eq := by show st.score + 10 = _; simp [hs] }
      · rename_i hwin
        have hwin' : ¬ allGuessed
            { st with guessedLetters := st.guessedLetters ++ [c] } := fun ha =>
          hwin ((winCondition_iff _).mpr ⟨h.word_ne, ha⟩)
        exact
          { word_ne := h.word_ne
            nodup := hnd
            wrong_eq := hmc
            wrong_le := h.wrong_le
            won_iff := by
              show st.gameStatus = GameStatus.won ↔ _
              rw [hp]
              exact ⟨fun h1 => (nomatch h1), fun h1 => absurd h1 hwin'⟩
            lost_iff := h.lost_iff
            score_eq := h.score_eq }
    · have hmc : st.wrongGuesses + 1
          = missCount { st with guessedLetters := st.guessedLetters ++ [c],
                                wrongGuesses := st.wrongGuesses + 1 } := by
        rw [missCount_append st c (st.wrongGuesses + 1), if_neg hw, ← h.wrong_eq]
      have hna : ¬ allGuessed { st with guessedLetters := st.guessedLetters ++ [c],
                                        wrongGuesses := st.wrongGuesses + 1 } :=
        fun ha => hnw ((allGuessed_append_miss hw).mp ha)
      rw [guessStep_miss hp hg hw]
      unfold loseEffect
      split
      · rename_i hge
        have hge' : MAX_WRONG_GUESSES ≤ st.wrongGuesses + 1 := hge
        have heq : st.wrongGuesses + 1 = MAX_WRONG_GUESSES := le_antisymm hlt hge'
        unfold checkWinCondition
        split
        · rename_i hwin
          exact absurd ((winCondition_iff _).mp hwin).2 hna
        exact
          { word_ne := h.word_ne
            nodup := hnd
            wrong_eq := hmc
            wrong_le := le_of_eq heq
            won_iff := ⟨fun h1 => (nomatch h1), fun h1 => absurd h1 hna⟩
            lost_iff := ⟨fun _ => heq, fun _ => rfl⟩
            score_eq := by show st.score = _; simp [hs] }
      · rename_i hge
        have hlt' : st.wrongGuesses + 1 < MAX_WRONG_GUESSES := Nat.lt_of_not_le hge
        unfold checkWinCondition
        split
        · rename_i hwin
          exact absurd ((winCondition_iff _).mp hwin).2 hna
        exact
          { word_ne := h.word_ne
            nodup := hnd
            wrong_eq := hmc
            wrong_le := le_of_lt hlt'
            won_iff := by
              show st.gameStatus = GameStatus.won ↔ _
              rw [hp]
              exact ⟨fun h1 => (nomatch h1), fun h1 => absurd h1 hna⟩
            lost_iff := by
              show st.gameStatus = GameStatus.lost ↔ st.wrongGuesses + 1 = MAX_WRONG_GUESSES
              rw [hp]
              exact ⟨fun h1 => (nomatch h1), fun h1 => absurd h1 (Nat.ne_of_lt hlt')⟩
            score_eq := h.score_eq }

theorem RoundInv.playGuesses {s : Nat} {st : State} (h : RoundInv s st) (letters : List Char) :
    RoundInv s (playGuesses st letters) := by
  unfold Hangman.playGuesses
  induction letters generalizing st with
  | nil => exact h
  | cons c cs ih => exact ih (h.guessStep c)

theorem WORD_LISTS_ne_empty {d : Difficulty} {w : String} (h : w ∈ WORD_LISTS d) : w ≠ "" := by
  have key : ∀ d : Difficulty, ∀ x ∈ WORD_LISTS d, x ≠ "" := by
    intro d
    cases d <;> decide
  exact key d w h

theorem WORD_LISTS_length (d : Difficulty) : (WORD_LISTS d).length = 10 := by
  cases d <;> rfl

theorem not_allGuessed_of_nil {st : State} (hne : st.currentWord ≠ "")
    (hg : st.guessedLetters = []) : ¬ allGuessed st := by
  intro ha
  unfold allGuessed at ha
  rw [hg] at ha
  cases hd : st.currentWord.toList with
  | nil =>
    apply hne
    have : st.currentWord.data = [] := hd
    exact String.ext this
  | cons x xs =>
    have := ha x (by rw [hd]; exact List.mem_cons_self x xs)
    cases this

theorem RoundStart.roundInv {st : State} (h : RoundStart st) : RoundInv st.score st := by
  obtain ⟨hmem, hg, hw, hp⟩ := h
  have hne : st.currentWord ≠ "" := WORD_LISTS_ne_empty hmem
  have hna : ¬ allGuessed st := not_allGuessed_of_nil hne hg
  exact
    { word_ne := hne
      nodup := by rw [hg]; exact List.nodup_nil
      wrong_eq := by rw [hw]; simp [missCount, hg]
      wrong_le := by rw [hw]; exact Nat.zero_le _
      won_iff := by rw [hp]; exact ⟨fun h1 => (nomatch h1), fun h1 => absurd h1 hna⟩
      lost_iff := by
        rw [hp, hw]
        exact ⟨fun h1 => (nomatch h1), fun h1 => (nomatch h1)⟩
      score_eq := by rw [hp]; simp }

theorem guessStep_fields {st : State} {c : Char} (hp : st.gameStatus = .playing)
    (hg : c ∉ st.guessedLetters) :
    (guessStep st c).guessedLetters = st.guessedLetters ++ [c]
      ∧ (guessStep st c).currentWord = st.currentWord
      ∧ (guessStep st c).wrongGuesses
          = st.wrongGuesses + (if c ∈ st.currentWord.toList then 0 else 1)
      ∧ (guessStep st c).difficulty = st.difficulty := by
  by_cases hw : c ∈ st.currentWord.toList
  · rw [guessStep_hit hp hg hw, if_pos hw]
    unfold checkWinCondition
    split <;> exact ⟨rfl, rfl, rfl, rfl⟩
  · rw [guessStep_miss hp hg hw, if_neg hw]
    unfold checkWinCondition loseEffect
    split <;> split <;> exact ⟨rfl, rfl, rfl, rfl⟩

theorem guessStep_status_hit {st : State} {c : Char} (hp : st.gameStatus = .playing)
    (hg : c ∉ st.guessedLetters) (hw : c ∈ st.currentWord.toList) :
    (guessStep st c).gameStatus ≠ .lost := by
  rw [guessStep_hit hp hg hw]
  unfold checkWinCondition
  split
  · intro h1; cases h1
  · show st.gameStatus ≠ GameStatus.lost
    rw [hp]
    intro h1; cases h1

theorem playGuesses_terminal {st : State} (h : st.gameStatus ≠ .playing) (letters : List Char) :
    playGuesses st letters = st := by
  unfold playGuesses
  induction letters with
  | nil => rfl
  | cons c cs ih =>
    rw [List.foldl_cons, guessStep_ignored (Or.inl h)]
    exact ih

theorem roundNearestEven_nonneg {y : ℚ} (hy : 0 ≤ y) : 0 ≤ roundNearestEven y := by
  have hf : 0 ≤ ⌊y⌋ := Int.floor_nonneg.mpr hy
  unfold roundNearestEven
  simp only
  split_ifs <;> omega

theorem roundNearestEven_le_of_lt {y : ℚ} {N : ℤ} (hy : y < N) : roundNearestEven y ≤ N := by
  have hf : ⌊y⌋ < N := Int.floor_lt.mpr hy
  unfold roundNearestEven
  simp only
  split_ifs <;> omega

theorem roundNearestEven_le_pred {y : ℚ} {N : ℤ} (hy : y < N - 1 / 2) :
    roundNearestEven y ≤ N - 1 := by
  have hf : ⌊y⌋ < N := Int.floor_lt.mpr (by linarith)
  unfold roundNearestEven
  simp only
  split_ifs with h1 h2 h3
  · omega
  all_goals
    have h4 : ((⌊y⌋ : ℤ) : ℚ) < ((N - 1 : ℤ) : ℚ) := by
      push_cast
      linarith
    have h5 : ⌊y⌋ < N - 1 := by exact_mod_cast h4
    omega

theorem F64.val_nonneg (x : F64) : 0 ≤ x.val := by
  unfold F64.val
  positivity

theorem F64.val_le_pred_one (x : F64) (h : x.val < 1) : x.val ≤ 1 - 1 / 2 ^ 53 := by
  obtain ⟨m, e, hm, he⟩ := x
  unfold F64.val at *
  simp only at *
  by_cases hk : -53 ≤ e
  · obtain ⟨k, rfl⟩ : ∃ k : ℕ, e = (k : ℤ) - 53 := ⟨(e + 53).toNat, by omega⟩
    have h2 : (2 : ℚ) ^ ((k : ℤ) - 53) = 2 ^ k / 2 ^ 53 := by
      rw [zpow_sub₀ (by norm_num), zpow_natCast]
      norm_num
    rw [h2] at h ⊢
    have h3 : ((m * 2 ^ k : ℕ) : ℚ) < ((2 ^ 53 : ℕ) : ℚ) := by
      push_cast
      have := (div_lt_one (by positivity : (0 : ℚ) < 2 ^ 53)).mp (by rw [← mul_div_assoc] at h; exact h)
      exact this
    have h4 : m * 2 ^ k < 2 ^ 53 := by exact_mod_cast h3
    have h5 : ((m * 2 ^ k + 1 : ℕ) : ℚ) ≤ ((2 ^ 53 : ℕ) : ℚ) := by exact_mod_cast h4
    push_cast at h5
    rw [← mul_div_assoc, div_le_iff₀ (by positivity)]
    linarith
  · have h1 : (2 : ℚ) ^ e ≤ 2 ^ (-54 : ℤ) := zpow_le_zpow_right₀ (by norm_num) (by omega)
    have h2 : (m : ℚ) ≤ 2 ^ 53 - 1 := by
      have : m + 1 ≤ 2 ^ 53 := hm
      have : ((m + 1 : ℕ) : ℚ) ≤ ((2 ^ 53 : ℕ) : ℚ) := by exact_mod_cast this
      push_cast at this
      linarith
    have h3 : (m : ℚ) * 2 ^ e ≤ (2 ^ 53 - 1) * 2 ^ (-54 : ℤ) :=
      mul_le_mul h2 h1 (by positivity) (by norm_num)
    refine le_trans h3 ?_
    norm_num

theorem roundF64_nonneg {x : ℚ} (hx : 0 ≤ x) : 0 ≤ roundF64 x := by
  unfold roundF64
  simp only
  have h1 : 0 ≤ x / (2 : ℚ) ^ (max (Int.log 2 x) (-1022) - 52) := by positivity
  have h2 := roundNearestEven_nonneg h1
  have h3 : (0 : ℚ) ≤ (roundNearestEven (x / (2 : ℚ) ^ (max (Int.log 2 x) (-1022) - 52)) : ℚ) := by
    exact_mod_cast h2
  positivity

theorem roundF64_lt_ten {x : ℚ} (hx : 0 ≤ x) (h : x ≤ 10 - 10 / 2 ^ 53) : roundF64 x < 10 := by
  have h2pos : ∀ E : ℤ, (0 : ℚ) < 2 ^ E := fun E => by positivity
  rcases hx.eq_or_lt with h0 | hpos
  · subst h0
    simp [roundF64, roundNearestEven]
  have hlog_le : (2 : ℚ) ^ Int.log 2 x ≤ x := by
    have := Int.zpow_log_le_self (b := 2) (by norm_num) hpos
    simpa using this
  have hlog_lt : x < (2 : ℚ) ^ (Int.log 2 x + 1) := by
    have := Int.lt_zpow_succ_log_self (b := 2) (by norm_num) x
    simpa using this
  unfold roundF64
  simp only
  set L := Int.log 2 x with hL
  set E : ℤ := max L (-1022) - 52 with hE
  by_cases h8 : x < 8
  · have hL2 : L ≤ 2 := by
      by_contra hc
      have h3 : (3 : ℤ) ≤ L := by omega
      have : (2 : ℚ) ^ (3 : ℤ) ≤ 2 ^ L := zpow_le_zpow_right₀ (by norm_num) h3
      norm_num at this
      linarith
    have hE1 : L + 1 ≤ E + 53 := by rw [hE]; have := le_max_left L (-1022); omega
    have hE2 : E + 53 ≤ 3 := by
      rw [hE]; have : max L (-1022) ≤ 2 := max_le hL2 (by norm_num); omega
    have hx1 : x < (2 : ℚ) ^ (E + 53) :=
      lt_of_lt_of_le hlog_lt (zpow_le_zpow_right₀ (by norm_num) hE1)
    have hx2 : x / (2 : ℚ) ^ E < ((2 ^ 53 : ℤ) : ℚ) := by
      rw [div_lt_iff₀ (h2pos E)]
      rw [zpow_add₀ (by norm_num)] at hx1
      push_cast
      have : (2 : ℚ) ^ (53 : ℤ) = 2 ^ 53 := by norm_num
      rw [this] at hx1
      linarith
    have hr := roundNearestEven_le_of_lt hx2
    have hr' : (roundNearestEven (x / (2 : ℚ) ^ E) : ℚ) ≤ 2 ^ 53 := by exact_mod_cast hr
    calc (roundNearestEven (x / (2 : ℚ) ^ E) : ℚ) * 2 ^ E
        ≤ 2 ^ 53 * 2 ^ E := mul_le_mul_of_nonneg_right hr' (le_of_lt (h2pos E))
      _ = 2 ^ (E + 53) := by
          rw [zpow_add₀ (by norm_num)]
          norm_num
          ring
      _ ≤ 2 ^ (3 : ℤ) := zpow_le_zpow_right₀ (by norm_num) hE2
      _ < 10 := by norm_num
  · have hL3 : L = 3 := by
      have h3 : (3 : ℤ) ≤ L := by
        by_contra hc
        have : L + 1 ≤ 3 := by omega
        have : (2 : ℚ) ^ (L + 1) ≤ 2 ^ (3 : ℤ) := zpow_le_zpow_right₀ (by norm_num) this
        norm_num at this
        linarith
      have h4 : L < 4 := by
        by_contra hc
        have : (4 : ℤ) ≤ L := by omega
        have : (2 : ℚ) ^ (4 : ℤ) ≤ 2 ^ L := zpow_le_zpow_right₀ (by norm_num) this
        norm_num at this
        linarith
      omega
    have hE49 : E = -49 := by rw [hE, hL3]; norm_num
    rw [hE49]
    have hx2 : x / (2 : ℚ) ^ (-49 : ℤ) < ((10 * 2 ^ 49 : ℤ) : ℚ) - 1 / 2 := by
      rw [div_lt_iff₀ (h2pos _)]
      push_cast
      norm_num
      norm_num at h
      linarith
    have hr := roundNearestEven_le_pred hx2
    have hr' : (roundNearestEven (x / (2 : ℚ) ^ (-49 : ℤ)) : ℚ) ≤ 10 * 2 ^ 49 - 1 := by
      exact_mod_cast hr
    calc (roundNearestEven (x / (2 : ℚ) ^ (-49 : ℤ)) : ℚ) * 2 ^ (-49 : ℤ)
        ≤ (10 * 2 ^ 49 - 1) * 2 ^ (-49 : ℤ) :=
          mul_le_mul_of_nonneg_right hr' (le_of_lt (h2pos _))
      _ < 10 := by norm_num

theorem randomIndex_ten_bounds (random : F64) (h : random.val < 1) :
    0 ≤ randomIndex random 10 ∧ randomIndex random 10 < 10 := by
  have h0 := random.val_nonneg
  have h1 := random.val_le_pred_one h
  have hx0 : 0 ≤ random.val * ((10 : ℕ) : ℚ) := by positivity
  have hx1 : random.val * ((10 : ℕ) : ℚ) ≤ 10 - 10 / 2 ^ 53 := by
    push_cast
    linarith
  unfold randomIndex
  constructor
  · exact Int.floor_nonneg.mpr (roundF64_nonneg hx0)
  · have := roundF64_lt_ten hx0 hx1
    exact Int.floor_lt.mpr (by exact_mod_cast this)

theorem roundNearestEven_abs_sub_le (y : ℚ) : |(roundNearestEven y : ℚ) - y| ≤ 1 / 2 := by
  have h1 : ((⌊y⌋ : ℤ) : ℚ) ≤ y := Int.floor_le y
  have h2 : y < ((⌊y⌋ : ℤ) : ℚ) + 1 := Int.lt_floor_add_one y
  unfold roundNearestEven
  simp only
  rw [abs_le]
  split_ifs with h3 h4 h5 <;> push_cast <;> constructor <;> linarith

theorem roundNearestEven_ge_of_le {y : ℚ} {N : ℤ} (hy : (N : ℚ) ≤ y) : N ≤ roundNearestEven y := by
  have hf : N ≤ ⌊y⌋ := Int.le_floor.mpr hy
  unfold roundNearestEven
  simp only
  split_ifs <;> omega

theorem roundNearestEven_le_of_le {y : ℚ} {N : ℤ} (hy : y ≤ (N : ℚ)) : roundNearestEven y ≤ N := by
  have h1 : ((⌊y⌋ : ℤ) : ℚ) ≤ y := Int.floor_le y
  have hf : ⌊y⌋ ≤ N := by exact_mod_cast le_trans h1 hy
  unfold roundNearestEven
  simp only
  split_ifs with h3 h4 h5
  · exact hf
  all_goals
    have h6 : ((⌊y⌋ : ℤ) : ℚ) < (N : ℚ) := by linarith
    have h7 : ⌊y⌋ < N := by exact_mod_cast h6
    omega

theorem roundNearestEven_ge_of_gt {y : ℚ} {N : ℤ} (hy : (N : ℚ) - 1 / 2 < y) :
    N ≤ roundNearestEven y := by
  have h2 : y < ((⌊y⌋ : ℤ) : ℚ) + 1 := Int.lt_floor_add_one y
  have h7 : N ≤ ⌊y⌋ + 1 := by
    have h6 : ((N : ℤ) : ℚ) < (((⌊y⌋ + 1 + 1 : ℤ)) : ℚ) := by push_cast; linarith
    have : N < ⌊y⌋ + 1 + 1 := by exact_mod_cast h6
    omega
  have h9 : y - ((⌊y⌋ : ℤ) : ℚ) ≤ 1 / 2 → N ≤ ⌊y⌋ := by
    intro h3
    have h8 : ((N : ℤ) : ℚ) < (((⌊y⌋ + 1 : ℤ)) : ℚ) := by push_cast; linarith
    have : N < ⌊y⌋ + 1 := by exact_mod_cast h8
    omega
  unfold roundNearestEven
  simp only
  split_ifs with h3 h4 h5
  · exact h9 (le_of_lt h3)
  · exact h7
  · exact h9 (not_lt.mp h4)
  · exact h7

theorem log_two_eq {x : ℚ} {L : ℤ} (h1 : (2 : ℚ) ^ L ≤ x) (h2 : x < (2 : ℚ) ^ (L + 1)) :
    Int.log 2 x = L := by
  have hpos : 0 < x := lt_of_lt_of_le (by positivity) h1
  have hlog_le : (2 : ℚ) ^ Int.log 2 x ≤ x := by
    have := Int.zpow_log_le_self (b := 2) (by norm_num) hpos
    simpa using this
  have hlog_lt : x < (2 : ℚ) ^ (Int.log 2 x + 1) := by
    have := Int.lt_zpow_succ_log_self (b := 2) (by norm_num) x
    simpa using this
  have a : L < Int.log 2 x + 1 := by
    by_contra hc
    have : (2 : ℚ) ^ (Int.log 2 x + 1) ≤ 2 ^ L := zpow_le_zpow_right₀ (by norm_num) (by omega)
    linarith
  have b : Int.log 2 x < L + 1 := by
    by_contra hc
    have : (2 : ℚ) ^ (L + 1) ≤ 2 ^ Int.log 2 x := zpow_le_zpow_right₀ (by norm_num) (by omega)
    linarith
  omega

theorem spacing_exp_le {x : ℚ} (hx : 0 ≤ x) (h : x < 16) :
    max (Int.log 2 x) (-1022) - 52 ≤ -49 := by
  have hL : Int.log 2 x ≤ 3 := by
    rcases hx.eq_or_lt with h0 | hpos
    · subst h0
      simp
    · have hlog_le : (2 : ℚ) ^ Int.log 2 x ≤ x := by
        have := Int.zpow_log_le_self (b := 2) (by norm_num) hpos
        simpa using this
      by_contra hc
      have : (2 : ℚ) ^ (4 : ℤ) ≤ 2 ^ Int.log 2 x := zpow_le_zpow_right₀ (by norm_num) (by omega)
      norm_num at this
      linarith
  have : max (Int.log 2 x) (-1022) ≤ 3 := max_le hL (by norm_num)
  omega

theorem roundF64_abs_sub_le {x : ℚ} (hx : 0 ≤ x) (h : x < 16) :
    |roundF64 x - x| ≤ 1 / 2 ^ 50 := by
  have hE := spacing_exp_le hx h
  unfold roundF64
  simp only
  set E : ℤ := max (Int.log 2 x) (-1022) - 52 with hEdef
  have hpos : (0 : ℚ) < 2 ^ E := by positivity
  have hr := roundNearestEven_abs_sub_le (x / (2 : ℚ) ^ E)
  have hu : (2 : ℚ) ^ E ≤ 2 ^ (-49 : ℤ) := zpow_le_zpow_right₀ (by norm_num) hE
  have heq : (roundNearestEven (x / (2 : ℚ) ^ E) : ℚ) * 2 ^ E - x
      = ((roundNearestEven (x / (2 : ℚ) ^ E) : ℚ) - x / 2 ^ E) * 2 ^ E := by
    field_simp
  rw [heq, abs_mul, abs_of_pos hpos]
  calc |(roundNearestEven (x / (2 : ℚ) ^ E) : ℚ) - x / 2 ^ E| * 2 ^ E
      ≤ 1 / 2 * 2 ^ (-49 : ℤ) := mul_le_mul hr hu (le_of_lt hpos) (by norm_num)
    _ = 1 / 2 ^ 50 := by norm_num

theorem int_div_spacing {E : ℤ} (hE : E ≤ 0) (k : ℤ) :
    ∃ N : ℤ, (N : ℚ) = (k : ℚ) / (2 : ℚ) ^ E := by
  obtain ⟨n, rfl⟩ : ∃ n : ℕ, E = -(n : ℤ) := ⟨(-E).toNat, by omega⟩
  refine ⟨k * 2 ^ n, ?_⟩
  rw [zpow_neg, zpow_natCast]
  push_cast
  field_simp

theorem roundF64_ge_int {x : ℚ} (hx : 0 ≤ x) (h : x < 16) {k : ℤ} (hk : (k : ℚ) ≤ x) :
    (k : ℚ) ≤ roundF64 x := by
  have hE := spacing_exp_le hx h
  unfold roundF64
  simp only
  set E : ℤ := max (Int.log 2 x) (-1022) - 52 with hEdef
  have hpos : (0 : ℚ) < 2 ^ E := by positivity
  obtain ⟨N, hN⟩ := int_div_spacing (by omega : E ≤ 0) k
  have hy : (N : ℚ) ≤ x / (2 : ℚ) ^ E := by
    rw [hN]
    exact div_le_div_of_nonneg_right hk (le_of_lt hpos)
  have hr : (N : ℚ) ≤ (roundNearestEven (x / (2 : ℚ) ^ E) : ℚ) := by
    exact_mod_cast roundNearestEven_ge_of_le hy
  have hk2 : (k : ℚ) = (N : ℚ) * 2 ^ E := by
    rw [hN]
    field_simp
  rw [hk2]
  exact mul_le_mul_of_nonneg_right hr (le_of_lt hpos)

theorem roundF64_le_int {x : ℚ} (hx : 0 ≤ x) (h : x < 16) {k : ℤ} (hk : x ≤ (k : ℚ)) :
    roundF64 x ≤ (k : ℚ) := by
  have hE := spacing_exp_le hx h
  unfold roundF64
  simp only
  set E : ℤ := max (Int.log 2 x) (-1022) - 52 with hEdef
  have hpos : (0 : ℚ) < 2 ^ E := by positivity
  obtain ⟨N, hN⟩ := int_div_spacing (by omega : E ≤ 0) k
  have hy : x / (2 : ℚ) ^ E ≤ (N : ℚ) := by
    rw [hN]
    exact div_le_div_of_nonneg_right hk (le_of_lt hpos)
  have hr : (roundNearestEven (x / (2 : ℚ) ^ E) : ℚ) ≤ (N : ℚ) := by
    exact_mod_cast roundNearestEven_le_of_le hy
  have hk2 : (k : ℚ) = (N : ℚ) * 2 ^ E := by
    rw [hN]
    field_simp
  rw [hk2]
  exact mul_le_mul_of_nonneg_right hr (le_of_lt hpos)

theorem randomIndex_ten_exact_floor (random : F64) (h : random.val < 1) :
    ⌊random.val * ((10 : ℕ) : ℚ)⌋ ≤ randomIndex random 10
      ∧ randomIndex random 10 ≤ ⌊random.val * ((10 : ℕ) : ℚ)⌋ + 1
      ∧ (randomIndex random 10 = ⌊random.val * ((10 : ℕ) : ℚ)⌋ + 1 →
          roundF64 (random.val * ((10 : ℕ) : ℚ)) = ((⌊random.val * ((10 : ℕ) : ℚ)⌋ + 1 : ℤ) : ℚ))
      ∧ |roundF64 (random.val * ((10 : ℕ) : ℚ)) - random.val * ((10 : ℕ) : ℚ)| ≤ 1 / 2 ^ 50 := by
  have h0 := random.val_nonneg
  have hx0 : 0 ≤ random.val * ((10 : ℕ) : ℚ) := by positivity
  have hx1 : random.val * ((10 : ℕ) : ℚ) < 16 := by
    push_cast
    linarith
  unfold randomIndex
  generalize random.val * ((10 : ℕ) : ℚ) = x at hx0 hx1
  have hlo : ((⌊x⌋ : ℤ) : ℚ) ≤ roundF64 x := roundF64_ge_int hx0 hx1 (Int.floor_le x)
  have hhi : roundF64 x ≤ ((⌊x⌋ + 1 : ℤ) : ℚ) :=
    roundF64_le_int hx0 hx1 (by push_cast; exact le_of_lt (Int.lt_floor_add_one x))
  have hfl : ((⌊roundF64 x⌋ : ℤ) : ℚ) ≤ roundF64 x := Int.floor_le _
  refine ⟨Int.le_floor.mpr hlo, ?_, ?_, roundF64_abs_sub_le hx0 hx1⟩
  · have : ((⌊roundF64 x⌋ : ℤ) : ℚ) ≤ ((⌊x⌋ + 1 : ℤ) : ℚ) := le_trans hfl hhi
    exact_mod_cast this
  · intro he
    apply le_antisymm hhi
    rw [← he]
    exact hfl

theorem randomIndex_half : randomIndex half 10 = 5 := by
  have hx : half.val * ((10 : ℕ) : ℚ) = ((5 : ℤ) : ℚ) := by
    unfold half F64.val
    norm_num
  unfold randomIndex
  rw [hx]
  have h1 : ((5 : ℤ) : ℚ) ≤ roundF64 ((5 : ℤ) : ℚ) :=
    roundF64_ge_int (by norm_num) (by norm_num) (le_refl _)
  have h2 : roundF64 ((5 : ℤ) : ℚ) ≤ ((5 : ℤ) : ℚ) :=
    roundF64_le_int (by norm_num) (by norm_num) (le_refl _)
  rw [le_antisymm h2 h1]
  exact Int.floor_intCast 5

theorem randomIndex_belowOne : belowOne.val < 1 ∧ randomIndex belowOne 10 = 9 := by
  have hv : belowOne.val = 1 - 1 / 2 ^ 53 := by
    unfold belowOne F64.val
    norm_num
  have hlt : belowOne.val < 1 := by rw [hv]; norm_num
  have hb := (randomIndex_ten_bounds belowOne hlt).2
  have hx0 : 0 ≤ belowOne.val * ((10 : ℕ) : ℚ) := by rw [hv]; norm_num
  have hx1 : belowOne.val * ((10 : ℕ) : ℚ) < 16 := by rw [hv]; norm_num
  have h9 : ((9 : ℤ) : ℚ) ≤ roundF64 (belowOne.val * ((10 : ℕ) : ℚ)) :=
    roundF64_ge_int hx0 hx1 (by rw [hv]; norm_num)
  have : 9 ≤ randomIndex belowOne 10 := Int.le_floor.mpr h9
  exact ⟨hlt, by omega⟩

theorem randomIndex_threeTenths :
    threeTenths.val < 1 ∧ ⌊threeTenths.val * ((10 : ℕ) : ℚ)⌋ = 2
      ∧ randomIndex threeTenths 10 = 3 := by
  have hv : threeTenths.val * ((10 : ℕ) : ℚ) = 54043195528445950 / 2 ^ 54 := by
    unfold threeTenths F64.val
    norm_num
  have hlt : threeTenths.val < 1 := by
    unfold threeTenths F64.val
    norm_num
  refine ⟨hlt, ?_, ?_⟩
  · rw [hv, Int.floor_eq_iff]
    constructor <;> norm_num
  · unfold randomIndex
    rw [hv]
    have hx0 : (0 : ℚ) ≤ 54043195528445950 / 2 ^ 54 := by norm_num
    have hx1 : (54043195528445950 / 2 ^ 54 : ℚ) < 16 := by norm_num
    have hhi : roundF64 (54043195528445950 / 2 ^ 54) ≤ ((3 : ℤ) : ℚ) :=
      roundF64_le_int hx0 hx1 (by norm_num)
    have hlog : Int.log 2 (54043195528445950 / 2 ^ 54 : ℚ) = 1 :=
      log_two_eq (by norm_num) (by norm_num)
    have hlo : ((3 : ℤ) : ℚ) ≤ roundF64 (54043195528445950 / 2 ^ 54) := by
      unfold roundF64
      simp only
      rw [hlog]
      have hE : (max (1 : ℤ) (-1022) - 52) = -51 := by norm_num
      rw [hE]
      have hr : (3 * 2 ^ 51 : ℤ) ≤
          roundNearestEven ((54043195528445950 / 2 ^ 54 : ℚ) / (2 : ℚ) ^ (-51 : ℤ)) :=
        roundNearestEven_ge_of_gt (by norm_num)
      have hr' : ((3 * 2 ^ 51 : ℤ) : ℚ) ≤
          (roundNearestEven ((54043195528445950 / 2 ^ 54 : ℚ) / (2 : ℚ) ^ (-51 : ℤ)) : ℚ) := by
        exact_mod_cast hr
      calc ((3 : ℤ) : ℚ) = ((3 * 2 ^ 51 : ℤ) : ℚ) * (2 : ℚ) ^ (-51 : ℤ) := by norm_num
        _ ≤ _ := mul_le_mul_of_nonneg_right hr' (by positivity)
    rw [le_antisymm hhi hlo]
    exact Int.floor_intCast 3

theorem intercalate_go_data (f : Char → String) (m : Char → Char)
    (hf : ∀ c, (f c).data = [m c]) :
    ∀ (acc : String) (xs : List Char),
      (String.intercalate.go acc " " (xs.map f)).data
        = acc.data ++ xs.flatMap (fun c => [' ', m c]) := by
  intro acc xs
  induction xs generalizing acc with
  | nil => simp [String.intercalate.go]
  | cons x xs ih =>
    simp only [List.map_cons, String.intercalate.go, List.flatMap_cons]
    rw [ih]
    simp [String.data_append, hf]

theorem intercalate_data (f : Char → String) (m : Char → Char)
    (hf : ∀ c, (f c).data = [m c]) (x : Char) (xs : List Char) :
    (" ".intercalate ((x :: xs).map f)).data = m x :: xs.flatMap (fun c => [' ', m c]) := by
  simp only [List.map_cons, String.intercalate]
  rw [intercalate_go_data f m hf, hf]
  rfl

theorem spaced_length (m : Char → Char) (x : Char) (xs : List Char) :
    (m x :: xs.flatMap (fun c => [' ', m c])).length = 2 * (x :: xs).length - 1 := by
  induction xs generalizing x with
  | nil => rfl
  | cons y ys ih =>
    have := ih y
    simp only [List.flatMap_cons, List.length_cons, List.cons_append, List.nil_append] at this ⊢
    omega

theorem spaced_even (m : Char → Char) (x : Char) (xs : List Char) (i : Nat) :
    (m x :: xs.flatMap (fun c => [' ', m c]))[2 * i]? = ((x :: xs)[i]?).map m := by
  induction xs generalizing x i with
  | nil =>
    cases i with
    | zero => rfl
    | succ j =>
      have h2 : 2 * (j + 1) = (2 * j + 1) + 1 := by omega
      rw [h2]
      rfl
  | cons y ys ih =>
    cases i with
    | zero => rfl
    | succ j =>
      have := ih y j
      simp only [List.flatMap_cons, List.cons_append, List.nil_append, Nat.mul_add, Nat.mul_one,
        List.getElem?_cons_succ] at this ⊢
      exact this

theorem spaced_odd (m : Char → Char) (x : Char) (xs : List Char) (i : Nat)
    (hi : i + 1 < (x :: xs).length) :
    (m x :: xs.flatMap (fun c => [' ', m c]))[2 * i + 1]? = some ' ' := by
  induction xs generalizing x i with
  | nil => simp at hi
  | cons y ys ih =>
    cases i with
    | zero => rfl
    | succ j =>
      have := ih y j (by simpa using hi)
      simp only [List.flatMap_cons, List.cons_append, List.nil_append, Nat.mul_add, Nat.mul_one,
        List.getElem?_cons_succ] at this ⊢
      exact this

theorem initializeGame_eq (random : F64) (hr : random.val < 1) (prev : State) :
    ∃ (i : Nat) (w : String),
      randomIndex random (WORD_LISTS prev.difficulty).length = (i : ℤ)
        ∧ i < (WORD_LISTS prev.difficulty).length
        ∧ (WORD_LISTS prev.difficulty)[i]? = some w
        ∧ w ∈ WORD_LISTS prev.difficulty
        ∧ initializeGame random prev = some { prev with
            currentWord := w, guessedLetters := [], wrongGuesses := 0, gameStatus := .playing } := by
  have hb := randomIndex_ten_bounds random hr
  rw [← WORD_LISTS_length prev.difficulty] at hb
  obtain ⟨h0, h1⟩ := hb
  obtain ⟨i, hi⟩ := Int.eq_ofNat_of_zero_le h0
  have hlt : i < (WORD_LISTS prev.difficulty).length := by
    rw [hi] at h1
    rw [WORD_LISTS_length]
    exact_mod_cast h1
  have hget : (WORD_LISTS prev.difficulty)[i]? = some ((WORD_LISTS prev.difficulty)[i]) :=
    List.getElem?_eq_getElem hlt
  refine ⟨i, (WORD_LISTS prev.difficulty)[i], hi, hlt, hget, List.getElem_mem hlt, ?_⟩
  unfold initializeGame
  simp only
  rw [if_pos h0, hi, Int.toNat_ofNat, hget]

theorem runEffects_fresh_round {prev next : State} (hne : next.currentWord ≠ "")
    (hg : next.guessedLetters = []) (hw : next.wrongGuesses = 0) :
    runEffects prev next true = next := by
  have hna : ¬ allGuessed next := not_allGuessed_of_nil hne hg
  have hwin : winCondition next = false := by
    rw [Bool.eq_false_iff]
    intro h
    exact hna ((winCondition_iff _).mp h).2
  have hlose : loseEffect next = next := by
    unfold loseEffect
    rw [if_neg]
    rw [hw]
    decide
  unfold runEffects
  simp only [Bool.true_or, if_true]
  split
  · rw [hlose]
    unfold checkWinCondition
    rw [hwin]
    rfl
  · unfold checkWinCondition
    rw [hwin]
    rfl

/-! ## The claims -/

/-- C1: in every state reached from a round start by any sequence of letter
guesses, each processed by `handleLetterGuess` and the effects it triggers,
`gameStatus` is `'won'` exactly when every letter of `currentWord` is in
`guessedLetters`. -/
theorem won_iff_every_letter_guessed (st0 : State) (h : RoundStart st0) (letters : List Char) :
    (playGuesses st0 letters).gameStatus = .won ↔ allGuessed (playGuesses st0 letters) :=
  (h.roundInv.playGuesses letters).won_iff

theorem won_iff_every_letter_guessed_witness :
    RoundStart catState ∧
      ((playGuesses catState ['C', 'X', 'A', 'T']).gameStatus = .won
        ↔ allGuessed (playGuesses catState ['C', 'X', 'A', 'T'])) :=
  ⟨by decide, won_iff_every_letter_guessed catState (by decide) ['C', 'X', 'A', 'T']⟩

/-- C2: in every state reached from a round start, `gameStatus` is `'lost'` exactly
when `wrongGuesses` equals `MAX_WRONG_GUESSES` (which is 6) and the round is not
won; a lost state never has every letter of `currentWord` guessed; the status is
lost exactly when six guessed letters are misses; a guess moves the round into
`'lost'` exactly when the round is in progress, the letter is a new miss and five
wrong guesses were made before it; on `DOG`, the guesses X, Y, Z, Q, W leave the
round in progress with five wrong guesses and V then loses it with six. -/
theorem lost_iff_six_wrong_guesses (st0 : State) (h : RoundStart st0) (letters : List Char) :
    ((playGuesses st0 letters).gameStatus = .lost ↔
        (playGuesses st0 letters).wrongGuesses = MAX_WRONG_GUESSES
          ∧ (playGuesses st0 letters).gameStatus ≠ .won)
      ∧ MAX_WRONG_GUESSES = 6
      ∧ ((playGuesses st0 letters).gameStatus = .lost → ¬ allGuessed (playGuesses st0 letters))
      ∧ ((playGuesses st0 letters).gameStatus = .lost ↔ missCount (playGuesses st0 letters) = 6)
      ∧ (∀ c : Char,
          ((guessStep (playGuesses st0 letters) c).gameStatus = .lost
              ∧ (playGuesses st0 letters).gameStatus ≠ .lost) ↔
            ((playGuesses st0 letters).gameStatus = .playing
              ∧ c ∉ (playGuesses st0 letters).guessedLetters
              ∧ c ∉ (playGuesses st0 letters).currentWord.toList
              ∧ (playGuesses st0 letters).wrongGuesses = 5))
      ∧ (playGuesses dogState ['X', 'Y', 'Z', 'Q', 'W']).gameStatus = .playing
      ∧ (playGuesses dogState ['X', 'Y', 'Z', 'Q', 'W']).wrongGuesses = 5
      ∧ (playGuesses dogState ['X', 'Y', 'Z', 'Q', 'W', 'V']).gameStatus = .lost
      ∧ (playGuesses dogState ['X', 'Y', 'Z', 'Q', 'W', 'V']).wrongGuesses = 6 := by
  have inv := h.roundInv.playGuesses letters
  generalize playGuesses st0 letters = st at inv
  refine ⟨?_, rfl, ?_, ?_, ?_, by decide, by decide, by decide, by decide⟩
  · constructor
    · intro hl
      refine ⟨inv.lost_iff.mp hl, ?_⟩
      rw [hl]
      intro h1; cases h1
    · intro hw
      exact inv.lost_iff.mpr hw.1
  · intro hl ha
    have := inv.won_iff.mpr ha
    rw [hl] at this
    cases this
  · rw [inv.lost_iff, inv.wrong_eq]
    rfl
  · intro c
    have inv2 := inv.guessStep c
    constructor
    · rintro ⟨hl, hnl⟩
      by_cases hi : st.gameStatus ≠ .playing ∨ c ∈ st.guessedLetters
      · rw [guessStep_ignored hi] at hl
        exact absurd hl hnl
      · simp only [not_or, not_not] at hi
        obtain ⟨hp, hg⟩ := hi
        by_cases hw : c ∈ st.currentWord.toList
        · exact absurd hl (guessStep_status_hit hp hg hw)
        · have hf := (guessStep_fields hp hg).2.2.1
          rw [if_neg hw] at hf
          have h6 := inv2.lost_iff.mp hl
          rw [hf] at h6
          have h6' : st.wrongGuesses + 1 = 6 := h6
          exact ⟨hp, hg, hw, by omega⟩
    · rintro ⟨hp, hg, hw, h5⟩
      have hf := (guessStep_fields hp hg).2.2.1
      rw [if_neg hw, h5] at hf
      refine ⟨inv2.lost_iff.mpr (by rw [hf]; rfl), ?_⟩
      rw [hp]
      intro h1; cases h1

theorem lost_iff_six_wrong_guesses_witness :
    RoundStart dogState ∧
      ((playGuesses dogState ['X', 'Y', 'Z', 'Q', 'W', 'V']).gameStatus = .lost ↔
        (playGuesses dogState ['X', 'Y', 'Z', 'Q', 'W', 'V']).wrongGuesses = MAX_WRONG_GUESSES
          ∧ (playGuesses dogState ['X', 'Y', 'Z', 'Q', 'W', 'V']).gameStatus ≠ .won) :=
  ⟨by decide,
    (lost_iff_six_wrong_guesses dogState (by decide) ['X', 'Y', 'Z', 'Q', 'W', 'V']).1⟩

/-- C3: when `gameStatus` is not `'playing'` or the letter is already in
`guessedLetters`, `handleLetterGuess` returns early and the guess step leaves the
whole state (`guessedLetters`, `wrongGuesses`, `gameStatus`, `currentWord`, `score`)
unchanged; and from a state whose status is `'won'` or `'lost'`, no sequence of
guesses changes the state. -/
theorem ignored_guess_changes_nothing (st : State) (c : Char)
    (h : st.gameStatus ≠ .playing ∨ c ∈ st.guessedLetters) :
    handleLetterGuess st c = none
      ∧ guessStep st c = st
      ∧ ((st.gameStatus = .won ∨ st.gameStatus = .lost) →
          ∀ letters : List Char, playGuesses st letters = st) := by
  refine ⟨handleLetterGuess_eq_none.mpr h, guessStep_ignored h, ?_⟩
  intro ht letters
  apply playGuesses_terminal
  rcases ht with ht | ht <;> rw [ht] <;> intro h1 <;> cases h1

theorem ignored_guess_changes_nothing_witness :
    ((playGuesses catState ['C', 'A', 'T']).gameStatus ≠ .playing
        ∨ 'Z' ∈ (playGuesses catState ['C', 'A', 'T']).guessedLetters)
      ∧ guessStep (playGuesses catState ['C', 'A', 'T']) 'Z'
          = playGuesses catState ['C', 'A', 'T'] :=
  ⟨by decide,
    (ignored_guess_changes_nothing (playGuesses catState ['C', 'A', 'T']) 'Z' (by decide)).2.1⟩

/-- C4: in a state with status `'playing'`, for a letter not yet in
`guessedLetters`, `handleLetterGuess` appends the letter to `guessedLetters` (the
previous letters are kept and the length grows by exactly one) and leaves
`currentWord` unchanged; `wrongGuesses` is unchanged when the letter occurs in
`currentWord` and grows by exactly one otherwise.  The effects that follow leave
these three fields as `handleLetterGuess` set them. -/
theorem accepted_guess_effect (st : State) (c : Char) (hp : st.gameStatus = .playing)
    (hg : c ∉ st.guessedLetters) :
    ∃ next : State, handleLetterGuess st c = some next
      ∧ next.guessedLetters = st.guessedLetters ++ [c]
      ∧ c ∈ next.guessedLetters
      ∧ (∀ x ∈ st.guessedLetters, x ∈ next.guessedLetters)
      ∧ next.guessedLetters.length = st.guessedLetters.length + 1
      ∧ next.currentWord = st.currentWord
      ∧ (c ∈ st.currentWord.toList → next.wrongGuesses = st.wrongGuesses)
      ∧ (c ∉ st.currentWord.toList → next.wrongGuesses = st.wrongGuesses + 1)
      ∧ (guessStep st c).guessedLetters = next.guessedLetters
      ∧ (guessStep st c).wrongGuesses = next.wrongGuesses
      ∧ (guessStep st c).currentWord = next.currentWord := by
  cases hn : handleLetterGuess st c with
  | none =>
    rcases handleLetterGuess_eq_none.mp hn with h1 | h1
    · exact absurd hp h1
    · exact absurd h1 hg
  | some next =>
    obtain ⟨_, _, hnext⟩ := handleLetterGuess_eq_some hn
    obtain ⟨f1, f2, f3, _⟩ := guessStep_fields hp hg
    subst hnext
    refine ⟨_, rfl, rfl, ?_, ?_, ?_, rfl, ?_, ?_, f1, f3, f2⟩
    · show c ∈ st.guessedLetters ++ [c]
      simp
    · intro x hx
      show x ∈ st.guessedLetters ++ [c]
      exact List.mem_append_left _ hx
    · show (st.guessedLetters ++ [c]).length = _
      simp
    · intro hw
      show st.wrongGuesses + _ = _
      rw [if_pos hw]; rfl
    · intro hw
      show st.wrongGuesses + _ = _
      rw [if_neg hw]

theorem accepted_guess_effect_witness :
    catC.gameStatus = .playing ∧ 'X' ∉ catC.guessedLetters ∧
      ∃ next : State, handleLetterGuess catC 'X' = some next
        ∧ next.guessedLetters = catC.guessedLetters ++ ['X']
        ∧ 'X' ∈ next.guessedLetters
        ∧ (∀ x ∈ catC.guessedLetters, x ∈ next.guessedLetters)
        ∧ next.guessedLetters.length = catC.guessedLetters.length + 1
        ∧ next.currentWord = catC.currentWord
        ∧ ('X' ∈ catC.currentWord.toList → next.wrongGuesses = catC.wrongGuesses)
        ∧ ('X' ∉ catC.currentWord.toList → next.wrongGuesses = catC.wrongGuesses + 1)
        ∧ (guessStep catC 'X').guessedLetters = next.guessedLetters
        ∧ (guessStep catC 'X').wrongGuesses = next.wrongGuesses
        ∧ (guessStep catC 'X').currentWord = next.currentWord :=
  ⟨by decide, by decide, accepted_guess_effect catC 'X' (by decide) (by decide)⟩

/-- C5: for a round started with score `s` and any sequence of letter guesses
(repeated letters and guesses after the end of the round included), the final
score is `s + 10` when the final status is `'won'` and `s` otherwise; a single
guess step adds exactly 10 when it moves the round from `'playing'` to `'won'` and
leaves the score unchanged in every other case; and `initializeGame`, with the
effects it triggers, leaves the score unchanged. -/
theorem score_changes_only_on_win (st0 : State) (h : RoundStart st0) (letters : List Char)
    (c : Char) (random : F64) (hr : random.val < 1) (prev : State) :
    ((playGuesses st0 letters).score =
        if (playGuesses st0 letters).gameStatus = .won then st0.score + 10 else st0.score)
      ∧ ((guessStep (playGuesses st0 letters) c).score =
          if (playGuesses st0 letters).gameStatus = .playing
              ∧ (guessStep (playGuesses st0 letters) c).gameStatus = .won
          then (playGuesses st0 letters).score + 10 else (playGuesses st0 letters).score)
      ∧ (∃ next : State, initializeGame random prev = some next
          ∧ startRound random prev = some next ∧ next.score = prev.score) := by
  have inv := h.roundInv.playGuesses letters
  generalize playGuesses st0 letters = st at inv
  refine ⟨inv.score_eq, ?_, ?_⟩
  · have inv2 := inv.guessStep c
    by_cases hi : st.gameStatus ≠ .playing ∨ c ∈ st.guessedLetters
    · rw [guessStep_ignored hi]
      by_cases hp : st.gameStatus = .playing
      · rw [if_neg]
        rw [hp]
        rintro ⟨_, h1⟩
        cases h1
      · rw [if_neg]
        exact fun h1 => hp h1.1
    · simp only [not_or, not_not] at hi
      obtain ⟨hp, _⟩ := hi
      have hs : st.score = st0.score := by
        have := inv.score_eq
        rw [hp] at this
        simpa using this
      rw [inv2.score_eq, hs]
      by_cases hwon : (guessStep st c).gameStatus = .won
      · rw [if_pos hwon, if_pos ⟨hp, hwon⟩]
      · rw [if_neg hwon, if_neg (fun h1 => hwon h1.2)]
  · obtain ⟨i, w, _, _, _, hmem, heq⟩ := initializeGame_eq random hr prev
    refine ⟨_, heq, ?_, rfl⟩
    unfold startRound
    rw [heq, Option.map_some']
    rw [runEffects_fresh_round (WORD_LISTS_ne_empty hmem) rfl rfl]

theorem score_changes_only_on_win_witness :
    RoundStart sunState ∧ half.val < 1 ∧
      (playGuesses sunState ['S', 'S', 'U', 'N', 'Z']).score =
        (if (playGuesses sunState ['S', 'S', 'U', 'N', 'Z']).gameStatus = .won
          then sunState.score + 10 else sunState.score) :=
  ⟨by decide, by unfold half F64.val; norm_num,
    (score_changes_only_on_win sunState (by decide) ['S', 'S', 'U', 'N', 'Z'] 'Z' half
      (by unfold half F64.val; norm_num) initialState).1⟩

/-- C6: in every state reached from a round start by any sequence of letter guesses,
`guessedLetters` has no repeated letter, `wrongGuesses` is the number of guessed
letters that do not occur in `currentWord`, and `wrongGuesses` is at most
`MAX_WRONG_GUESSES` (6), hence an index into the seven entries of
`HANGMAN_STAGES`. -/
theorem reachable_state_invariants (st0 : State) (h : RoundStart st0) (letters : List Char) :
    (playGuesses st0 letters).guessedLetters.Nodup
      ∧ (playGuesses st0 letters).wrongGuesses = missCount (playGuesses st0 letters)
      ∧ 0 ≤ (playGuesses st0 letters).wrongGuesses
      ∧ (playGuesses st0 letters).wrongGuesses ≤ MAX_WRONG_GUESSES
      ∧ MAX_WRONG_GUESSES = 6
      ∧ HANGMAN_STAGES.length = 7
      ∧ (playGuesses st0 letters).wrongGuesses < HANGMAN_STAGES.length
      ∧ ∃ stage : String, HANGMAN_STAGES[(playGuesses st0 letters).wrongGuesses]? = some stage := by
  have inv := h.roundInv.playGuesses letters
  generalize playGuesses st0 letters = st at inv
  have hlt : st.wrongGuesses < HANGMAN_STAGES.length :=
    Nat.lt_succ_of_le inv.wrong_le
  exact ⟨inv.nodup, inv.wrong_eq, Nat.zero_le _, inv.wrong_le, rfl, rfl, hlt,
    ⟨HANGMAN_STAGES[st.wrongGuesses], List.getElem?_eq_getElem hlt⟩⟩

theorem reachable_state_invariants_witness :
    RoundStart dogState ∧
      (playGuesses dogState ['D', 'X', 'X', 'Y', 'G']).wrongGuesses
        = missCount (playGuesses dogState ['D', 'X', 'X', 'Y', 'G']) :=
  ⟨by decide,
    (reachable_state_invariants dogState (by decide) ['D', 'X', 'X', 'Y', 'G']).2.1⟩

/-- C7: for every previous state (hence every difficulty) and every value `random`
of `Math.random()` below 1, `initializeGame` picks the word at the index
`Math.floor(Math.random() * wordList.length)`, the floor of the binary64 product
of `random` and the length.  That product is within `2 ^ (-50)` of the exact
product, so the index is the floor of the exact product, or one more when the
product rounds up to the next integer (as for `0.3`, where the index is 3); it is a
natural number below the length of `WORD_LISTS[difficulty]`, so the new
`currentWord` is an element of `WORD_LISTS[difficulty]`.  Whatever the previous
state, `guessedLetters` becomes empty, `wrongGuesses` 0 and `gameStatus`
`'playing'`, score and difficulty are kept, and the effects that follow change
nothing.  At `0.5` with difficulty medium the index is 5 and the word `WATER`; at
the largest value below 1 the index is 9. -/
theorem initializeGame_picks_word_and_resets (random : F64) (hr : random.val < 1)
    (prev : State) :
    (∃ (i : Nat) (next : State),
      (i : ℤ) = ⌊roundF64 (random.val * ((WORD_LISTS prev.difficulty).length : ℚ))⌋
        ∧ randomIndex random (WORD_LISTS prev.difficulty).length = (i : ℤ)
        ∧ ⌊random.val * ((WORD_LISTS prev.difficulty).length : ℚ)⌋ ≤ (i : ℤ)
        ∧ (i : ℤ) ≤ ⌊random.val * ((WORD_LISTS prev.difficulty).length : ℚ)⌋ + 1
        ∧ ((i : ℤ) = ⌊random.val * ((WORD_LISTS prev.difficulty).length : ℚ)⌋ + 1 →
            roundF64 (random.val * ((WORD_LISTS prev.difficulty).length : ℚ))
              = ((⌊random.val * ((WORD_LISTS prev.difficulty).length : ℚ)⌋ + 1 : ℤ) : ℚ))
        ∧ |roundF64 (random.val * ((WORD_LISTS prev.difficulty).length : ℚ))
            - random.val * ((WORD_LISTS prev.difficulty).length : ℚ)| ≤ 1 / 2 ^ 50
        ∧ i < (WORD_LISTS prev.difficulty).length
        ∧ (WORD_LISTS prev.difficulty)[i]? = some next.currentWord
        ∧ next.currentWord ∈ WORD_LISTS prev.difficulty
        ∧ initializeGame random prev = some next
        ∧ startRound random prev = some next
        ∧ next.guessedLetters = []
        ∧ next.wrongGuesses = 0
        ∧ next.gameStatus = .playing
        ∧ next.score = prev.score
        ∧ next.difficulty = prev.difficulty
        ∧ RoundStart next)
      ∧ randomIndex half 10 = 5
      ∧ initializeGame half initialState = some { initialState with currentWord := "WATER" }
      ∧ randomIndex belowOne 10 = 9
      ∧ ⌊threeTenths.val * ((10 : ℕ) : ℚ)⌋ = 2
      ∧ randomIndex threeTenths 10 = 3 := by
  refine ⟨?_, randomIndex_half, ?_, randomIndex_belowOne.2, randomIndex_threeTenths.2.1,
    randomIndex_threeTenths.2.2⟩
  · obtain ⟨i, w, hi, hlt, hget, hmem, heq⟩ := initializeGame_eq random hr prev
    have hs := randomIndex_ten_exact_floor random hr
    rw [← WORD_LISTS_length prev.difficulty, hi] at hs
    obtain ⟨s1, s2, s3, s4⟩ := hs
    refine ⟨i, _, hi.symm, hi, s1, s2, s3, s4, hlt, hget, hmem, heq, ?_, rfl, rfl, rfl, rfl, rfl,
      ⟨hmem, rfl, rfl, rfl⟩⟩
    unfold startRound
    rw [heq, Option.map_some']
    rw [runEffects_fresh_round (WORD_LISTS_ne_empty hmem) rfl rfl]
  · have h5 : randomIndex half (WORD_LISTS initialState.difficulty).length = 5 :=
      randomIndex_half
    unfold initializeGame
    simp only
    rw [h5]
    rfl

theorem initializeGame_picks_word_and_resets_witness :
    half.val < 1 ∧
      ∃ (i : Nat) (next : State),
        (i : ℤ) = ⌊roundF64 (half.val * ((WORD_LISTS initialState.difficulty).length : ℚ))⌋
          ∧ i < (WORD_LISTS initialState.difficulty).length
          ∧ (WORD_LISTS initialState.difficulty)[i]? = some next.currentWord
          ∧ initializeGame half initialState = some next
          ∧ RoundStart next := by
  have hlt : half.val < 1 := by unfold half F64.val; norm_num
  obtain ⟨⟨i, next, h1, _, _, _, _, _, h2, h3, _, h4, _, _, _, _, _, _, h5⟩, _⟩ :=
    initializeGame_picks_word_and_resets half hlt initialState
  exact ⟨hlt, i, next, h1, h2, h3, h4, h5⟩

/-- C8: `displayWord` is a function of the state alone; in its result, position
`2 * i` holds the `i`-th letter of `currentWord` when that letter is in
`guessedLetters` and the placeholder `_` otherwise, every position `2 * i + 1`
between two letters holds a single space, a word of `n ≥ 1` letters yields
`2 * n - 1` characters, and for `CAT` with only `C` guessed the result is
`C _ _`. -/
theorem displayWord_masks_each_position (st : State) :
    (∀ (i : Nat) (c : Char), st.currentWord.toList[i]? = some c →
        (displayWord st).toList[2 * i]? = some (if c ∈ st.guessedLetters then c else '_'))
      ∧ (∀ i : Nat, i + 1 < st.currentWord.toList.length →
          (displayWord st).toList[2 * i + 1]? = some ' ')
      ∧ (1 ≤ st.currentWord.toList.length →
          (displayWord st).toList.length = 2 * st.currentWord.toList.length - 1)
      ∧ displayWord catC = "C _ _" := by
  refine ⟨?_, ?_, ?_, by decide⟩
  all_goals
    have hf : ∀ c : Char,
        (if st.guessedLetters.contains c then String.singleton c else "_").data
          = [if c ∈ st.guessedLetters then c else '_'] := by
      intro c
      by_cases hc : c ∈ st.guessedLetters
      · simp [hc, String.singleton]
      · simp [hc]
    cases hw : st.currentWord.toList with
    | nil => simp
    | cons x xs =>
      have hd : (displayWord st).toList
          = (if x ∈ st.guessedLetters then x else '_')
              :: xs.flatMap (fun c => [' ', if c ∈ st.guessedLetters then c else '_']) := by
        unfold displayWord
        rw [hw]
        exact intercalate_data _ (fun c => if c ∈ st.guessedLetters then c else '_') hf x xs
      rw [hd]
      first
      | intro i c hic
        rw [spaced_even (fun c => if c ∈ st.guessedLetters then c else '_') x xs i, hic]
        rfl
      | intro i hi
        exact spaced_odd (fun c => if c ∈ st.guessedLetters then c else '_') x xs i hi
      | intro _
        exact spaced_length (fun c => if c ∈ st.guessedLetters then c else '_') x xs

theorem displayWord_masks_each_position_witness :
    (displayWord catC).toList[2 * 0]? = some 'C'
      ∧ (displayWord catC).toList[2 * 1]? = some '_'
      ∧ (displayWord catC).toList[2 * 1 + 1]? = some ' '
      ∧ (displayWord catC).toList.length = 2 * 3 - 1 :=
  ⟨(displayWord_masks_each_position catC).1 0 'C' (by decide),
    (displayWord_masks_each_position catC).1 1 'A' (by decide),
    (displayWord_masks_each_position catC).2.1 1 (by decide),
    (displayWord_masks_each_position catC).2.2.1 (by decide)⟩

/-- C9: for every state and every letter, processing the same guess twice in
succession (each time `handleLetterGuess` and the effects it triggers) yields the
same state as processing it once. -/
theorem guessStep_idempotent (st : State) (c : Char) :
    guessStep (guessStep st c) c = guessStep st c := by
  by_cases hi : st.gameStatus ≠ .playing ∨ c ∈ st.guessedLetters
  · rw [guessStep_ignored hi, guessStep_ignored hi]
  · simp only [not_or, not_not] at hi
    obtain ⟨hp, hg⟩ := hi
    apply guessStep_ignored
    right
    rw [(guessStep_fields hp hg).1]
    simp

/-- C10, as stated: `displayWord` for `CAT` with only `C` guessed does not return
`C _ T`. -/
theorem displayWord_CAT_C_ne : displayWord catC ≠ "C _ T" := by decide

/-- C10, amended: `displayWord` with `currentWord = 'CAT'` and
`guessedLetters = ['C']` returns `C _ _`, the unguessed `T` being masked like the
unguessed `A`. -/
theorem displayWord_CAT_C_eq :
    catC.currentWord = "CAT" ∧ catC.guessedLetters = ['C'] ∧ displayWord catC = "C _ _" := by
  decide

end Hangman
